import Mathlib

/-!
Verification development for the schwa repository mining engine.

The development shallowly embeds the three source modules:
`schwa/parsing/java_parser.py` (structural parser, edit-sequence extractor,
change correlator), `schwa/extraction/git_extractor.py` (extraction
pipeline) and `schwa/analysis/time_weighted_risk.py` (time-weighted risk
analysis).  External collaborators (the plyj grammar parser, difflib,
GitPython, multiprocessing) are out of scope for the repository itself and
are modelled explicitly where needed, each with a doc comment saying so.
-/

namespace Schwa

/-- Direction of an edit run: added lines of version B, or removed lines of
version A.  In the Python source the direction is the string tag carried in
slot 0 of a changed sequence. -/
inductive Direction where
  | add : Direction
  | rem : Direction
deriving DecidableEq, Repr

/-- A parsed component, as produced by `JavaParser.parse`: the Python code
represents it as the list `[start_line, end_line, class_name, function_name]`. -/
structure Component where
  start_line : Nat
  end_line : Nat
  class_name : String
  function_name : String
deriving DecidableEq, Repr

/-- A changed sequence (edit run), as produced by
`JavaParser.extract_changed_sequences`: the Python code represents it as the
list `[operation, start_line, end_line]` with operation "+" or "-". -/
structure Run where
  operation : Direction
  start_line : Nat
  end_line : Nat
deriving DecidableEq, Repr

/-- The operation tag carried by a diff record (`added=True`, `removed=True`,
`modified=True` or `renamed=True` keyword arguments in the Python source). -/
inductive Op where
  | added : Op
  | removed : Op
  | modified : Op
  | renamed : Op
deriving DecidableEq, Repr

/-- A diff record: `DiffFile`, `DiffClass` or `DiffMethod` from
`schwa.repository` (constructor keyword arguments preserved as fields). -/
inductive Diff where
  | file (file_a : Option String) (file_b : Option String) (op : Op) : Diff
  | clazz (file_name : String) (class_a : Option String) (class_b : Option String) (op : Op) : Diff
  | method (file_name : String) (class_name : String)
      (method_a : Option String) (method_b : Option String) (op : Op) : Diff
deriving DecidableEq, Repr

/-- Test whether a string starts with the character `c`; this embeds the
anchored regex searches `^\+`, `^-` and `^\?` used on ndiff output lines. -/
def startsWithCh (c : Char) (line : String) : Bool :=
  match line.data with
  | [] => false
  | c0 :: _ => c0 = c

/-- Loop state of `JavaParser.extract_changed_sequences`: the two line
counters, the currently open changed sequence (if any) and the list of
closed changed sequences. -/
structure SeqState where
  line_number_a : Nat
  line_number_b : Nat
  changed_sequence : Option Run
  changed_sequences : List Run
deriving DecidableEq, Repr

/-- The run emitted when the currently open changed sequence is closed by a
line that is not of its own direction: its end line is fixed to the counter
of its own side at closure. -/
def emitOf (st : SeqState) : List Run :=
  match st.changed_sequence with
  | none => []
  | some r =>
      [{ r with end_line := match r.operation with
          | Direction.add => st.line_number_b
          | Direction.rem => st.line_number_a }]

/-- One iteration of the `for line in changed_lines` loop of
`JavaParser.extract_changed_sequences` (java_parser.py lines 116-152). -/
def stepLine (st : SeqState) (line : String) : SeqState :=
  if startsWithCh '+' line then
    let st1 :=
      match st.changed_sequence with
      | some r =>
          if r.operation = Direction.rem then
            { st with changed_sequence := none,
                      changed_sequences := st.changed_sequences ++
                        [{ r with end_line := st.line_number_a }] }
          else st
      | none => st
    let st2 := { st1 with line_number_b := st1.line_number_b + 1 }
    match st2.changed_sequence with
    | none => { st2 with changed_sequence := some ⟨Direction.add, st2.line_number_b, 0⟩ }
    | some _ => st2
  else if startsWithCh '-' line then
    let st1 :=
      match st.changed_sequence with
      | some r =>
          if r.operation = Direction.add then
            { st with changed_sequence := none,
                      changed_sequences := st.changed_sequences ++
                        [{ r with end_line := st.line_number_b }] }
          else st
      | none => st
    let st2 := { st1 with line_number_a := st1.line_number_a + 1 }
    match st2.changed_sequence with
    | none => { st2 with changed_sequence := some ⟨Direction.rem, st2.line_number_a, 0⟩ }
    | some _ => st2
  else
    let st1 := { st with changed_sequence := none,
                         changed_sequences := st.changed_sequences ++ emitOf st }
    if startsWithCh '?' line then st1
    else { st1 with line_number_a := st1.line_number_a + 1,
                    line_number_b := st1.line_number_b + 1 }

/-- The initial loop state of `extract_changed_sequences`. -/
def initSeqState : SeqState := ⟨0, 0, none, []⟩

/-- The body of `JavaParser.extract_changed_sequences` applied to an already
computed list of ndiff output lines; the function returns the closed changed
sequences (a sequence still open at end of input is not returned). -/
def extractChangedTagged (changed_lines : List String) : List Run :=
  (changed_lines.foldl stepLine initSeqState).changed_sequences

/-- Length of a longest common subsequence of two line lists; auxiliary to
the ndiff model below. -/
def lcsLen : List String → List String → Nat
  | [], _ => 0
  | _ :: _, [] => 0
  | x :: xs, y :: ys =>
      if x = y then lcsLen xs ys + 1
      else max (lcsLen xs (y :: ys)) (lcsLen (x :: xs) ys)
termination_by a b => a.length + b.length
decreasing_by all_goals simp_arith

/-- Modelled from the spec: `difflib.ndiff` is Python standard library code,
external to this repository; the spec requires only "any
longest-common-subsequence-based classification of each line as
unchanged/added/removed".  This model tags each line with the two-character
ndiff prefixes "  ", "+ " and "- "; the intra-line hint lines ("? ") that
the real ndiff can interleave are not produced by the model and are instead
treated directly as inputs of `extractChangedTagged` where a claim concerns
them. -/
def ndiffModel : List String → List String → List String
  | [], ys => ys.map (fun l => "+ " ++ l)
  | x :: xs, [] => (x :: xs).map (fun l => "- " ++ l)
  | x :: xs, y :: ys =>
      if x = y then ("  " ++ x) :: ndiffModel xs ys
      else if lcsLen (x :: xs) ys ≤ lcsLen xs (y :: ys) then
        ("- " ++ x) :: ndiffModel xs (y :: ys)
      else
        ("+ " ++ y) :: ndiffModel (x :: xs) ys
termination_by a b => a.length + b.length
decreasing_by all_goals simp_arith

namespace JavaParser

/-- `JavaParser.extract_changed_sequences` (java_parser.py lines 92-154):
split both sources on newline characters, classify lines via ndiff, and run
the coalescing loop. -/
def extract_changed_sequences (source_a source_b : String) : List Run :=
  extractChangedTagged (ndiffModel (source_a.splitOn "\n") (source_b.splitOn "\n"))

end JavaParser

/-- A node of the plyj syntax tree as consumed by `JavaParser.parse_tree`:
a method or constructor declaration (whose `end_line` attribute may be
absent), a class declaration with its member body, or any other member. -/
inductive Member where
  | method (start_line : Nat) (end_line : Option Nat) (name : String) : Member
  | clazz (name : String) (body : List Member) : Member
  | other : Member

mutual

/-- Recursion of `JavaParser.parse_tree` into the class declarations of a
body, in order, extending the component list with each nested class's
components (java_parser.py lines 85-87). -/
def classComponents (parents : List String) : List Member → List Component
  | [] => []
  | Member.clazz n b :: rest =>
      parseTreeBody (parents ++ [n]) b ++ classComponents parents rest
  | _ :: rest => classComponents parents rest

/-- `JavaParser.parse_tree` (java_parser.py lines 61-89) applied to a node's
body with the accumulated parent-class names: components of the methods and
constructors that have a resolvable end line come first (class path joined
with dots), then the components of nested classes. -/
def parseTreeBody (parents : List String) (body : List Member) : List Component :=
  body.filterMap (fun m =>
    match m with
    | Member.method s (some e) n =>
        some ⟨s, e, String.intercalate "." parents, n⟩
    | _ => none)
  ++ classComponents parents body

end

namespace JavaParser

/-- `JavaParser.parse` (java_parser.py lines 40-59).  The plyj grammar
parser (`parser.parse_string`) is an external collaborator; it is passed in
as `grammar`, returning the top-level type declarations on success and an
error value when it raises `ParsingError` or `IndexError`, which `parse`
turns into the empty component list. -/
def parse (grammar : String → Except Unit (List Member)) (code : String) :
    List Component :=
  match grammar code with
  | Except.error _ => []
  | Except.ok body => parseTreeBody [] body

end JavaParser

/-- The key a component contributes to the method-identity sets of
`JavaParser.diff`: the pair `(class_name, function_name)`. -/
def methodKey (c : Component) : String × String :=
  (c.class_name, c.function_name)

/-- The interval test of `JavaParser.diff` (java_parser.py lines 182 and
186): a component is hit by a run when the run's start line or the run's
end line lies within the component's inclusive range. -/
def hitBy (r : Run) (c : Component) : Bool :=
  (r.start_line ≥ c.start_line && r.start_line ≤ c.end_line) ||
  (r.end_line ≥ c.start_line && r.end_line ≤ c.end_line)

/-- The marking loops of `JavaParser.diff` (java_parser.py lines 179-187):
for every changed sequence of direction `d`, every component of the given
side hit by it contributes its method key to the changed set. -/
def changedKeys (d : Direction) (runs : List Run) (comps : List Component) :
    List (String × String) :=
  runs.flatMap (fun r =>
    if r.operation = d then (comps.filter (hitBy r)).map methodKey else [])

/-- The Python set `methods_a` / `methods_b` of `JavaParser.diff`
(java_parser.py lines 190-191), as a deduplicated list. -/
def methodsOf (comps : List Component) : List (String × String) :=
  (comps.map methodKey).dedup

/-- The Python set `classes_a` / `classes_b` of `JavaParser.diff`
(java_parser.py lines 205-206), as a deduplicated list. -/
def classesOf (comps : List Component) : List String :=
  (comps.map (fun c => c.class_name)).dedup

/-- `methods_added = methods_b - methods_a` (java_parser.py line 192). -/
def methodsAdded (components_a components_b : List Component) :
    List (String × String) :=
  (methodsOf components_b).filter (fun k => decide (k ∉ methodsOf components_a))

/-- `methods_removed = methods_a - methods_b` (java_parser.py line 193). -/
def methodsRemoved (components_a components_b : List Component) :
    List (String × String) :=
  (methodsOf components_a).filter (fun k => decide (k ∉ methodsOf components_b))

/-- `methods_modified = (changed_a | changed_b) - (methods_added |
methods_removed)` (java_parser.py line 194). -/
def methodsModified (components_a components_b : List Component)
    (changed_sequences : List Run) : List (String × String) :=
  ((changedKeys Direction.rem changed_sequences components_a ++
    changedKeys Direction.add changed_sequences components_b).dedup).filter
    (fun k => decide (k ∉ methodsAdded components_a components_b) &&
      decide (k ∉ methodsRemoved components_a components_b))

/-- `classes_added = classes_b - classes_a` (java_parser.py line 207). -/
def classesAdded (components_a components_b : List Component) : List String :=
  (classesOf components_b).filter (fun c => decide (c ∉ classesOf components_a))

/-- `classes_removed = classes_a - classes_b` (java_parser.py line 208). -/
def classesRemoved (components_a components_b : List Component) : List String :=
  (classesOf components_a).filter (fun c => decide (c ∉ classesOf components_b))

/-- `classes_modified = (classes_a & classes_b) & (classes of added,
removed and modified methods)` (java_parser.py line 209). -/
def classesModified (components_a components_b : List Component)
    (changed_sequences : List Run) : List String :=
  ((classesOf components_a).filter
    (fun c => decide (c ∈ classesOf components_b))).filter
    (fun c => decide (c ∈ (methodsAdded components_a components_b ++
      methodsRemoved components_a components_b ++
      methodsModified components_a components_b changed_sequences).map
        (fun k => k.1)))

/-- The body of `JavaParser.diff` after both sides have been parsed and the
changed sequences extracted (java_parser.py lines 172-218).  Python set
values are represented as deduplicated lists; all classifications below are
used only through membership, which matches the set semantics. -/
def diffCore (path_b : String) (components_a components_b : List Component)
    (changed_sequences : List Run) : List Diff :=
  (methodsAdded components_a components_b).map
    (fun k => Diff.method path_b k.1 none (some k.2) Op.added)
  ++ (methodsRemoved components_a components_b).map
    (fun k => Diff.method path_b k.1 (some k.2) none Op.removed)
  ++ (methodsModified components_a components_b changed_sequences).map
    (fun k => Diff.method path_b k.1 (some k.2) (some k.2) Op.modified)
  ++ (classesAdded components_a components_b).map
    (fun c => Diff.clazz path_b none (some c) Op.added)
  ++ (classesRemoved components_a components_b).map
    (fun c => Diff.clazz path_b (some c) none Op.removed)
  ++ (classesModified components_a components_b changed_sequences).map
    (fun c => Diff.clazz path_b (some c) (some c) Op.modified)

namespace JavaParser

/-- `JavaParser.diff` (java_parser.py lines 156-218): parse both sides,
extract the changed sequences, and correlate.  Only `path_b` is used when
constructing diff records, exactly as in the source. -/
def diff (grammar : String → Except Unit (List Member))
    (file_a file_b : String × String) : List Diff :=
  diffCore file_b.1 (parse grammar file_a.2) (parse grammar file_b.2)
    (extract_changed_sequences file_a.2 file_b.2)

end JavaParser

/-- Test whether `needle` occurs at the head of `hay`; auxiliary to the
substring test below. -/
def leadsWith : List Char → List Char → Bool
  | [], _ => true
  | _ :: _, [] => false
  | a :: as, b :: bs => a = b && leadsWith as bs

/-- Test whether `needle` occurs contiguously anywhere in `hay`; together
with `strContains` this embeds the Python substring operator `in`. -/
def occursIn (needle : List Char) : List Char → Bool
  | [] => leadsWith needle []
  | c :: t => leadsWith needle (c :: t) || occursIn needle t

/-- The Python expression `needle in hay` on strings. -/
def strContains (hay needle : String) : Bool :=
  occursIn needle.data hay.data

/-- A git blob as seen by the extractor: a path and its decoded content
(`blob.path`, `blob.data_stream.read().decode("UTF-8")`). -/
structure Blob where
  path : String
  content : String
deriving DecidableEq, Repr

/-- One entry of a parent-to-commit tree delta, as produced by the GitPython
collaborator (`parent.diff(commit)`): the change-kind flags, the two
optional blobs, and the rename paths. -/
structure DeltaEntry where
  new_file : Bool
  renamed : Bool
  deleted_file : Bool
  a_blob : Option Blob
  b_blob : Option Blob
  rename_from : String
  rename_to : String
deriving DecidableEq, Repr

/-- A commit as read from the GitPython collaborator: metadata, the
snapshot blobs traversed for a root commit, and one tree delta per parent.
The commit is a root commit exactly when `parentDeltas` is empty. -/
structure GCommit where
  hexsha : String
  message : String
  author : String
  committed_date : Int
  rootBlobs : List Blob
  parentDeltas : List (List DeltaEntry)

/-- The `Commit` aggregate built by `GitExtractor.extract_commit`. -/
structure ExCommit where
  id : String
  message : String
  author : String
  timestamp : Int
  diffs : List Diff
deriving DecidableEq, Repr

/-- The extraction state `GitExtractor` carries across `extract_commit`
calls: the grammar collaborator behind `JavaParser.parse`, the supplied
source-type classifier `is_code_file`, the compiled `ignore_regex` match
test, and the `method_granularity` flag. -/
structure ExtractorCtx where
  grammar : String → Except Unit (List Member)
  is_code_file : String → Bool
  ignoreMatch : String → Bool
  method_granularity : Bool

namespace GitExtractor

/-- The `is_good_blob` lambda of `extract_commit` (git_extractor.py line
57): the blob exists, is a recognized code file, and does not match the
ignore regex. -/
def is_good_blob (ctx : ExtractorCtx) : Option Blob → Bool
  | none => false
  | some b => ctx.is_code_file b.path && !ctx.ignoreMatch b.path

/-- `GitExtractor.parse` (git_extractor.py lines 113-117): dispatches on
the substring "java" in the path and returns Python `None` (here `none`)
for any other path, since the function then falls off its end. -/
def parse (grammar : String → Except Unit (List Member)) (path source : String) :
    Option (List Component) :=
  if strContains path "java" then some (JavaParser.parse grammar source) else none

/-- `GitExtractor.diff` (git_extractor.py lines 119-123): dispatches on the
substring "java" in the path of version A and returns Python `None` for any
other path. -/
def diff (grammar : String → Except Unit (List Member))
    (file_a file_b : String × String) : Option (List Diff) :=
  if strContains file_a.1 "java" then some (JavaParser.diff grammar file_a file_b)
  else none

/-- Accessing an attribute of a Python `None` blob raises `AttributeError`,
which `extract_commit` catches; the error value models that exception (and
the `TypeError`/`UnicodeDecodeError` ones) propagating to the handler. -/
def getBlob : Option Blob → Except Unit Blob
  | none => Except.error ()
  | some b => Except.ok b

/-- The `DiffFile(added)` record plus, under method granularity, the
added-only structural diffs of a fresh file (git_extractor.py lines 64-72
and 79-87; the two occurrences in the source are identical up to the blob
they read).  Iterating over the `None` returned by `GitExtractor.parse` for
a non-java path raises `TypeError`, modelled by the error value. -/
def addedFileDiffs (ctx : ExtractorCtx) (path source : String) :
    Except Unit (List Diff) :=
  if ctx.method_granularity then
    match parse ctx.grammar path source with
    | none => Except.error ()
    | some components =>
        Except.ok ([Diff.file none (some path) Op.added]
          ++ components.map (fun c =>
              Diff.method path c.class_name none (some c.function_name) Op.added)
          ++ ((components.map (fun c => c.class_name)).dedup).map (fun c =>
              Diff.clazz path none (some c) Op.added))
  else Except.ok [Diff.file none (some path) Op.added]

/-- The body of the `for diff in diffs` loop of `extract_commit`
(git_extractor.py lines 76-102) for one tree-delta entry, returning the
diff records the entry contributes or the exception the branch raises. -/
def processEntry (ctx : ExtractorCtx) (e : DeltaEntry) : Except Unit (List Diff) :=
  if !is_good_blob ctx e.a_blob && !is_good_blob ctx e.b_blob then
    Except.ok []
  else if e.new_file then do
    let b ← getBlob e.b_blob
    addedFileDiffs ctx b.path b.content
  else if e.renamed then
    if is_good_blob ctx e.b_blob then
      if ctx.method_granularity then do
        let a ← getBlob e.a_blob
        let b ← getBlob e.b_blob
        match diff ctx.grammar (e.rename_from, a.content) (e.rename_to, b.content) with
        | none => Except.error ()
        | some ds =>
            Except.ok ([Diff.file (some e.rename_from) (some e.rename_to) Op.renamed] ++ ds)
      else Except.ok [Diff.file (some e.rename_from) (some e.rename_to) Op.renamed]
    else Except.ok []
  else if e.deleted_file then do
    let a ← getBlob e.a_blob
    Except.ok [Diff.file (some a.path) none Op.removed]
  else do
    let a ← getBlob e.a_blob
    let b ← getBlob e.b_blob
    if ctx.method_granularity then
      match diff ctx.grammar (a.path, a.content) (b.path, b.content) with
      | none => Except.error ()
      | some ds =>
          Except.ok ([Diff.file (some a.path) (some b.path) Op.modified] ++ ds)
    else Except.ok [Diff.file (some a.path) (some b.path) Op.modified]

/-- The root-commit traversal of `extract_commit` (git_extractor.py lines
61-72): every good blob of the snapshot tree contributes a `DiffFile(added)`
and, under method granularity, added-only structural diffs. -/
def processRoot (ctx : ExtractorCtx) (blobs : List Blob) : Except Unit (List Diff) :=
  blobs.foldlM (fun acc b =>
    if is_good_blob ctx (some b) then do
      let ds ← addedFileDiffs ctx b.path b.content
      pure (acc ++ ds)
    else pure acc) []

/-- The per-parent entry loop of `extract_commit`, accumulating the diffs
contributed by every entry of one tree delta. -/
def collectEntries (ctx : ExtractorCtx) (es : List DeltaEntry) :
    Except Unit (List Diff) :=
  es.foldlM (fun acc e => do pure (acc ++ (← processEntry ctx e))) []

/-- `GitExtractor.extract_commit` (git_extractor.py lines 49-111): build
the commit's diff list (root traversal when the commit has no parents, then
the per-parent delta loops); a raised `TypeError`, `UnicodeDecodeError` or
`AttributeError` makes the function return `None`, as does an empty diff
list. -/
def extract_commit (ctx : ExtractorCtx) (c : GCommit) : Option ExCommit :=
  let result : Except Unit (List Diff) := do
    let rootDiffs ←
      if c.parentDeltas.isEmpty then processRoot ctx c.rootBlobs
      else pure []
    let parentDiffs ← c.parentDeltas.foldlM
      (fun acc es => do pure (acc ++ (← collectEntries ctx es))) []
    pure (rootDiffs ++ parentDiffs)
  match result with
  | Except.error _ => none
  | Except.ok diffs =>
      if diffs.length > 0 then some ⟨c.hexsha, c.message, c.author, c.committed_date, diffs⟩
      else none

/-- Modelled from the spec: process-pool mechanics are out of scope (spec
section 1); `multiprocessing.Pool.map` applies the function to every
element and returns the results in the order of the input list, whatever
the completion order of the workers. -/
def poolMap {α β : Type} (f : α → β) (l : List α) : List β :=
  l.map f

/-- `GitExtractor.extract_commits` (git_extractor.py lines 31-47): map the
per-commit extraction over the newest-first commit list — through the pool
when `parallel` is set, through the built-in `map` otherwise — drop the
`None` results, and reverse into chronological ascending order. -/
def extract_commits (ctx : ExtractorCtx) (commits : List GCommit) (parallel : Bool) :
    List ExCommit :=
  let results :=
    if parallel then poolMap (extract_commit ctx) commits
    else commits.map (extract_commit ctx)
  ((results.filterMap id)).reverse

end GitExtractor

/-- Modelled from the spec: the repository data classes (`schwa.repository`)
are not under src; a file of the analysed repository carries its path (spec
section 3, Repository's set of current file paths). -/
structure AFile where
  path : String
deriving DecidableEq, Repr

/-- Modelled from the spec: a commit as consumed by the analysis — its
message, its timestamp, and the set of file paths its diffs touch
(`commit.files` in time_weighted_risk.py line 31). -/
structure ACommit where
  message : String
  timestamp : ℝ
  files : List String

/-- Modelled from the spec: the Repository aggregate — chronologically
ascending commits, the creation timestamp (`repository.timestamp`, the
spec's created_at), the evaluation timestamp (the spec's evaluated_at,
which the extractor stores but the analysis code never reads), and the
current files. -/
structure ARepository where
  commits : List ACommit
  timestamp : ℝ
  evaluated_at : ℝ
  files : List AFile

/-- A string lowered character by character; embeds the `re.I` flag of the
bug-fixing test. -/
def lowerStr (s : String) : String :=
  String.mk (s.data.map Char.toLower)

/-- The score mapping, Python's `metrics` dict: an association list from
file path to cumulative score whose keys are fixed at seeding time. -/
def seedMetrics (files : List AFile) : List (String × ℝ) :=
  ((files.map AFile.path).dedup).map (fun p => (p, 0))

/-- The Python membership test `f in metrics`. -/
def hasKey : List (String × ℝ) → String → Bool
  | [], _ => false
  | (k, _) :: rest, f => if k = f then true else hasKey rest f

/-- The Python statement `metrics[f] += calc` on the entry of key `f` (the
seeding makes keys unique, so entry-wise update matches the dict update). -/
def addAt : List (String × ℝ) → String → ℝ → List (String × ℝ)
  | [], _, _ => []
  | (k, w) :: rest, f, v => (if k = f then (k, w + v) else (k, w)) :: addAt rest f v

/-- Dictionary access `metrics[p]`, read as 0 for an absent key so that
scores of non-current files can be stated uniformly. -/
def getScore : List (String × ℝ) → String → ℝ
  | [], _ => 0
  | (k, v) :: rest, p => if k = p then v else getScore rest p

namespace TimeWeightedRiskAnalysis

/-- `TimeWeightedRiskAnalysis.is_bug_fixing` (time_weighted_risk.py lines
12-14): `re.search("bug|fix", commit.message, re.I)`, i.e. the message
contains "bug" or "fix" case-insensitively. -/
def is_bug_fixing (c : ACommit) : Bool :=
  strContains (lowerStr c.message) "bug" || strContains (lowerStr c.message) "fix"

/-- `TimeWeightedRiskAnalysis.normalise_timestamp` (time_weighted_risk.py
lines 16-21). -/
noncomputable def normalise_timestamp (begin_ts ts current_ts : ℝ) : ℝ :=
  (ts - begin_ts) / (current_ts - begin_ts)

/-- One iteration of the commit loop of `analyze` (time_weighted_risk.py
lines 28-36): skip non-bug-fixing commits, otherwise add the weight
`1 / (1 + e ^ (-12 x + 12))` to every touched file still present in the
metrics.  The float constant `math.e` raised to a float power is modelled
as the real exponential. -/
noncomputable def stepCommit (begin_ts current_ts : ℝ)
    (metrics : List (String × ℝ)) (c : ACommit) : List (String × ℝ) :=
  if is_bug_fixing c then
    let ts := normalise_timestamp begin_ts c.timestamp current_ts
    let w := 1 / (1 + Real.exp (-12 * ts + 12))
    c.files.foldl (fun m f => if hasKey m f then addAt m f w else m) metrics
  else metrics

/-- `TimeWeightedRiskAnalysis.analyze` (time_weighted_risk.py lines 23-37).
The wall-clock value `time.time()` that the method reads is passed in
explicitly as `current_timestamp`; note that the method uses it — not
`repository.evaluated_at` — as the denominator anchor of the normalization. -/
noncomputable def analyze (repo : ARepository) (current_timestamp : ℝ) :
    List (String × ℝ) :=
  repo.commits.foldl (stepCommit repo.timestamp current_timestamp)
    (seedMetrics repo.files)

end TimeWeightedRiskAnalysis

/-- A concrete two-commit repository in the shape of the spec's Scenario C:
a non-bug-fixing first commit and a bug-fixing second commit, both touching
"X.java"; the second commit is timestamped exactly at `evaluated_at`. -/
noncomputable def c1C : ACommit := ⟨"initial import", 1, ["X.java"]⟩

/-- The bug-fixing second commit of the Scenario C repository, timestamped
at the repository's `evaluated_at`. -/
noncomputable def c2C : ACommit := ⟨"fix null pointer", 2, ["X.java"]⟩

/-- The Scenario C repository: created at 0, evaluated at 2, current files
"X.java" and "Y.java". -/
noncomputable def repoC : ARepository := ⟨[c1C, c2C], 0, 2, [⟨"X.java"⟩, ⟨"Y.java"⟩]⟩

/-- The operation tag of any diff record. -/
def diffOp : Diff → Op
  | Diff.file _ _ op => op
  | Diff.clazz _ _ _ op => op
  | Diff.method _ _ _ _ op => op

lemma startsWithCh_ne {l : String} {c c' : Char} (h : startsWithCh c l = true)
    (hne : c' ≠ c) : startsWithCh c' l = false := by
  unfold startsWithCh at h ⊢
  cases hd : l.data with
  | nil => rw [hd] at h
  | cons c0 t =>
      rw [hd] at h
      simp only [decide_eq_true_eq] at h
      subst h
      simp [Ne.symm hne]

lemma startsWithCh_spaces {c : Char} (hc : c ≠ ' ') (x : String) :
    startsWithCh c ("  " ++ x) = false := by
  unfold startsWithCh
  rw [String.data_append, show ("  " : String).data = [' ', ' '] from rfl]
  simp [Ne.symm hc]

lemma stepLine_unchanged (st : SeqState) (l : String)
    (h1 : startsWithCh '+' l = false) (h2 : startsWithCh '-' l = false)
    (h3 : startsWithCh '?' l = false) :
    stepLine st l =
      { st with line_number_a := st.line_number_a + 1,
                line_number_b := st.line_number_b + 1,
                changed_sequence := none,
                changed_sequences := st.changed_sequences ++ emitOf st } := by
  simp [stepLine, h1, h2, h3]

lemma stepLine_hint (st : SeqState) (l : String)
    (h1 : startsWithCh '+' l = false) (h2 : startsWithCh '-' l = false)
    (h3 : startsWithCh '?' l = true) :
    stepLine st l =
      { st with changed_sequence := none,
                changed_sequences := st.changed_sequences ++ emitOf st } := by
  simp [stepLine, h1, h2, h3]

lemma foldl_same_seqs (l : List String) :
    ∀ st : SeqState, st.changed_sequence = none →
      (List.foldl stepLine st (l.map (fun x => "  " ++ x))).changed_sequences =
        st.changed_sequences := by
  induction l with
  | nil => intro st _; simp
  | cons x xs ih =>
      intro st hst
      rw [List.map_cons, List.foldl_cons,
        stepLine_unchanged st _ (startsWithCh_spaces (by decide) x)
          (startsWithCh_spaces (by decide) x) (startsWithCh_spaces (by decide) x)]
      rw [ih _ rfl]
      simp [emitOf, hst]

lemma ndiffModel_self (l : List String) :
    ndiffModel l l = l.map (fun x => "  " ++ x) := by
  induction l with
  | nil => rw [ndiffModel]; simp
  | cons x xs ih => rw [ndiffModel]; simp [ih]

lemma extract_changed_sequences_self (a : String) :
    JavaParser.extract_changed_sequences a a = [] := by
  unfold JavaParser.extract_changed_sequences extractChangedTagged
  rw [ndiffModel_self]
  exact foldl_same_seqs _ initSeqState rfl

lemma filter_not_mem_self {α : Type} [DecidableEq α] (l : List α) :
    (l.filter fun k => decide (k ∉ l)) = [] := by
  rw [List.filter_eq_nil_iff]
  intro a ha
  simp [ha]

lemma changedKeys_nil_runs (d : Direction) (comps : List Component) :
    changedKeys d [] comps = [] := by
  simp [changedKeys]

lemma mem_changedKeys_iff (d : Direction) (runs : List Run)
    (comps : List Component) (k : String × String) :
    k ∈ changedKeys d runs comps ↔
      ∃ r ∈ runs, r.operation = d ∧ ∃ c ∈ comps, methodKey c = k ∧
        ((c.start_line ≤ r.start_line ∧ r.start_line ≤ c.end_line) ∨
         (c.start_line ≤ r.end_line ∧ r.end_line ≤ c.end_line)) := by
  constructor
  · intro h
    rcases List.mem_flatMap.1 h with ⟨r, hr, hk⟩
    by_cases hd : r.operation = d
    · rw [if_pos hd] at hk
      rcases List.mem_map.1 hk with ⟨c, hc, hck⟩
      rcases List.mem_filter.1 hc with ⟨hcmem, hhit⟩
      refine ⟨r, hr, hd, c, hcmem, hck, ?_⟩
      simpa [hitBy] using hhit
    · rw [if_neg hd] at hk
      cases hk
  · rintro ⟨r, hr, hd, c, hc, hck, hcond⟩
    refine List.mem_flatMap.2 ⟨r, hr, ?_⟩
    rw [if_pos hd]
    refine List.mem_map.2 ⟨c, List.mem_filter.2 ⟨hc, ?_⟩, hck⟩
    simp only [hitBy, ge_iff_le, Bool.or_eq_true, Bool.and_eq_true, decide_eq_true_eq]
    tauto

lemma changedKeys_subset {d : Direction} {runs : List Run}
    {comps : List Component} {k : String × String}
    (h : k ∈ changedKeys d runs comps) : k ∈ comps.map methodKey := by
  rcases (mem_changedKeys_iff d runs comps k).1 h with ⟨r, _, _, c, hc, hck, _⟩
  exact List.mem_map.2 ⟨c, hc, hck⟩

lemma diffCore_self (p : String) (comps : List Component) :
    diffCore p comps comps [] = [] := by
  have hma : methodsAdded comps comps = [] := by
    unfold methodsAdded; rw [List.filter_eq_nil_iff]; intro a ha; simp [ha]
  have hmr : methodsRemoved comps comps = [] := by
    unfold methodsRemoved; rw [List.filter_eq_nil_iff]; intro a ha; simp [ha]
  have hmm : methodsModified comps comps [] = [] := by
    simp [methodsModified, changedKeys_nil_runs]
  have hca : classesAdded comps comps = [] := by
    unfold classesAdded; rw [List.filter_eq_nil_iff]; intro a ha; simp [ha]
  have hcr : classesRemoved comps comps = [] := by
    unfold classesRemoved; rw [List.filter_eq_nil_iff]; intro a ha; simp [ha]
  have hcm : classesModified comps comps [] = [] := by
    rw [classesModified, List.filter_eq_nil_iff]
    intro a _
    simp [hma, hmr, hmm]
  simp [diffCore, hma, hmr, hmm, hca, hcr, hcm]

lemma changedKeys_comps_nil (d : Direction) (runs : List Run) :
    changedKeys d runs [] = [] := by
  simp [changedKeys]

lemma methodsAdded_left_nil (b : List Component) :
    methodsAdded [] b = methodsOf b := by
  unfold methodsAdded
  rw [List.filter_eq_self]
  intro k _
  simp [methodsOf]

lemma methodsRemoved_left_nil (b : List Component) : methodsRemoved [] b = [] := by
  simp [methodsRemoved, methodsOf]

lemma methodsModified_left_nil (b : List Component) (runs : List Run) :
    methodsModified [] b runs = [] := by
  unfold methodsModified
  rw [List.filter_eq_nil_iff]
  intro k hk
  have hkb : k ∈ methodsOf b := by
    rcases List.mem_append.1 (List.mem_dedup.1 hk) with h | h
    · rw [changedKeys_comps_nil] at h; cases h
    · exact List.mem_dedup.2 (changedKeys_subset h)
  have hadd : k ∈ methodsAdded [] b := by rw [methodsAdded_left_nil]; exact hkb
  simp [hadd]

lemma classesAdded_left_nil (b : List Component) : classesAdded [] b = classesOf b := by
  unfold classesAdded
  rw [List.filter_eq_self]
  intro c _
  simp [classesOf]

lemma classesRemoved_left_nil (b : List Component) : classesRemoved [] b = [] := by
  simp [classesRemoved, classesOf]

lemma classesModified_left_nil (b : List Component) (runs : List Run) :
    classesModified [] b runs = [] := by
  simp [classesModified, classesOf]

lemma diffCore_left_nil (p : String) (b : List Component) (runs : List Run) :
    diffCore p [] b runs =
      (methodsOf b).map (fun k => Diff.method p k.1 none (some k.2) Op.added)
      ++ (classesOf b).map (fun c => Diff.clazz p none (some c) Op.added) := by
  rw [diffCore, methodsAdded_left_nil, methodsRemoved_left_nil,
    methodsModified_left_nil, classesAdded_left_nil, classesRemoved_left_nil,
    classesModified_left_nil]
  simp

lemma methodsAdded_right_nil (a : List Component) : methodsAdded a [] = [] := by
  simp [methodsAdded, methodsOf]

lemma methodsRemoved_right_nil (a : List Component) :
    methodsRemoved a [] = methodsOf a := by
  unfold methodsRemoved
  rw [List.filter_eq_self]
  intro k _
  simp [methodsOf]

lemma methodsModified_right_nil (a : List Component) (runs : List Run) :
    methodsModified a [] runs = [] := by
  unfold methodsModified
  rw [List.filter_eq_nil_iff]
  intro k hk
  have hka : k ∈ methodsOf a := by
    rcases List.mem_append.1 (List.mem_dedup.1 hk) with h | h
    · exact List.mem_dedup.2 (changedKeys_subset h)
    · rw [changedKeys_comps_nil] at h; cases h
  have hrem : k ∈ methodsRemoved a [] := by rw [methodsRemoved_right_nil]; exact hka
  simp [hrem]

lemma classesAdded_right_nil (a : List Component) : classesAdded a [] = [] := by
  simp [classesAdded, classesOf]

lemma classesRemoved_right_nil (a : List Component) :
    classesRemoved a [] = classesOf a := by
  unfold classesRemoved
  rw [List.filter_eq_self]
  intro c _
  simp [classesOf]

lemma classesModified_right_nil (a : List Component) (runs : List Run) :
    classesModified a [] runs = [] := by
  unfold classesModified
  rw [List.filter_eq_nil_iff]
  intro c hc
  rcases List.mem_filter.1 hc with ⟨_, hcb⟩
  simp [classesOf] at hcb

lemma diffCore_right_nil (p : String) (a : List Component) (runs : List Run) :
    diffCore p a [] runs =
      (methodsOf a).map (fun k => Diff.method p k.1 (some k.2) none Op.removed)
      ++ (classesOf a).map (fun c => Diff.clazz p (some c) none Op.removed) := by
  rw [diffCore, methodsAdded_right_nil, methodsRemoved_right_nil,
    methodsModified_right_nil, classesAdded_right_nil, classesRemoved_right_nil,
    classesModified_right_nil]
  simp

lemma diff_self (grammar : String → Except Unit (List Member))
    (path_a path_b a : String) :
    JavaParser.diff grammar (path_a, a) (path_b, a) = [] := by
  unfold JavaParser.diff
  rw [extract_changed_sequences_self]
  exact diffCore_self _ _

lemma foldl_rem_run (n : Nat) :
    ∀ (st : SeqState) (r : Run), st.changed_sequence = some r →
      r.operation = Direction.rem →
      List.foldl stepLine st (List.replicate n "- x") =
        { st with line_number_a := st.line_number_a + n } := by
  induction n with
  | zero => intro st r _ _; simp
  | succ m ih =>
      intro st r hr hop
      rw [List.replicate_succ, List.foldl_cons]
      have hstep : stepLine st "- x" = { st with line_number_a := st.line_number_a + 1 } := by
        simp [stepLine, hr, hop, show startsWithCh '-' "- x" = true from rfl,
          show startsWithCh '+' "- x" = false from rfl]
      rw [hstep, ih { st with line_number_a := st.line_number_a + 1 } r hr hop]
      have : st.line_number_a + 1 + m = st.line_number_a + (m + 1) := by omega
      rw [this]

lemma foldl_rem_open (m : Nat) (st : SeqState) (h : st.changed_sequence = none) :
    List.foldl stepLine st (List.replicate (m + 1) "- x") =
      { st with line_number_a := st.line_number_a + (m + 1),
                changed_sequence := some ⟨Direction.rem, st.line_number_a + 1, 0⟩ } := by
  rw [List.replicate_succ, List.foldl_cons]
  have hstep : stepLine st "- x" =
      { st with line_number_a := st.line_number_a + 1,
                changed_sequence := some ⟨Direction.rem, st.line_number_a + 1, 0⟩ } := by
    simp [stepLine, h, show startsWithCh '-' "- x" = true from rfl,
      show startsWithCh '+' "- x" = false from rfl]
  rw [hstep, foldl_rem_run m
    { st with line_number_a := st.line_number_a + 1,
              changed_sequence := some ⟨Direction.rem, st.line_number_a + 1, 0⟩ }
    ⟨Direction.rem, st.line_number_a + 1, 0⟩ rfl rfl]
  have : st.line_number_a + 1 + m = st.line_number_a + (m + 1) := by omega
  rw [this]

lemma foldl_added_lines (s : List String) :
    ∀ st : SeqState, (∀ l ∈ s, startsWithCh '+' l = true) →
      (∀ r, st.changed_sequence = some r → r.operation = Direction.add) →
      (List.foldl stepLine st s).changed_sequences = st.changed_sequences := by
  induction s with
  | nil => intro st _ _; simp
  | cons l t ih =>
      intro st hs hopen
      have hl : startsWithCh '+' l = true := hs l (List.mem_cons_self l t)
      rw [List.foldl_cons]
      cases hcs : st.changed_sequence with
      | none =>
          have hstep : stepLine st l =
              { st with line_number_b := st.line_number_b + 1,
                        changed_sequence :=
                          some ⟨Direction.add, st.line_number_b + 1, 0⟩ } := by
            simp [stepLine, hl, hcs]
          rw [hstep]
          exact ih _ (fun x hx => hs x (List.mem_cons_of_mem l hx))
            (by intro r hr; cases hr; rfl)
      | some r =>
          have hadd : r.operation = Direction.add := hopen r hcs
          have hstep : stepLine st l =
              { st with line_number_b := st.line_number_b + 1 } := by
            simp [stepLine, hl, hcs, hadd]
          rw [hstep]
          exact ih _ (fun x hx => hs x (List.mem_cons_of_mem l hx))
            (fun r' hr' => by
              have hst : st.changed_sequence = some r' := hr'
              rw [hcs] at hst
              cases hst
              exact hadd)

/-- C2: the claim states that any range intersection between a run and a
component marks the component, in particular a run strictly containing the
component's whole range.  The code's test (java_parser.py lines 182 and
186) checks only whether an endpoint of the run lies inside the component,
so a strictly containing run marks nothing: with component lines 2-3 and a
removed run covering lines 1-4 the ranges intersect, yet the component is
not marked and the correlator emits no diff at all. -/
theorem claim_C2_counterexample :
    (Run.start_line ⟨Direction.rem, 1, 4⟩ < Component.start_line ⟨2, 3, "C", "m"⟩ ∧
     Component.end_line ⟨2, 3, "C", "m"⟩ < Run.end_line ⟨Direction.rem, 1, 4⟩ ∧
     Component.start_line ⟨2, 3, "C", "m"⟩ ≤ Run.end_line ⟨Direction.rem, 1, 4⟩ ∧
     Run.start_line ⟨Direction.rem, 1, 4⟩ ≤ Component.end_line ⟨2, 3, "C", "m"⟩) ∧
    ("C", "m") ∉ changedKeys Direction.rem [⟨Direction.rem, 1, 4⟩] [⟨2, 3, "C", "m"⟩] ∧
    diffCore "F.java" [⟨2, 3, "C", "m"⟩] [⟨2, 3, "C", "m"⟩]
      [⟨Direction.rem, 1, 4⟩, ⟨Direction.add, 1, 4⟩] = [] := by
  decide

/-- C2 (amended): in diff, for every removed edit run, a before-side
component is marked touched-in-A exactly when the run's start line or the
run's end line lies within the component's inclusive range (symmetrically
for added runs and after-side components); partial overlap that leaves an
endpoint of the run inside the component marks the whole component, but a
run that strictly contains the component's entire range does not mark it. -/
theorem claim_C2_amended (d : Direction) (runs : List Run)
    (comps : List Component) (k : String × String) :
    k ∈ changedKeys d runs comps ↔
      ∃ r ∈ runs, r.operation = d ∧ ∃ c ∈ comps, methodKey c = k ∧
        ((c.start_line ≤ r.start_line ∧ r.start_line ≤ c.end_line) ∨
         (c.start_line ≤ r.end_line ∧ r.end_line ≤ c.end_line)) :=
  mem_changedKeys_iff d runs comps k

/-- C3: the claim states that an ndiff hint line ("?") neither closes an
open run nor advances a counter, so that a span of same-direction lines
with interleaved hints coalesces into one run.  In the code the hint line
does close the open run (the closing happens before the "?" test,
java_parser.py lines 139-150), so the span "- a", "? h", "- b", "  c"
yields two runs instead of the single coalesced run 1-2. -/
theorem claim_C3_counterexample :
    extractChangedTagged ["- a", "? h", "- b", "  c"] =
      [⟨Direction.rem, 1, 1⟩, ⟨Direction.rem, 2, 2⟩] ∧
    extractChangedTagged ["- a", "? h", "- b", "  c"] ≠ [⟨Direction.rem, 1, 2⟩] := by
  decide

/-- C3 (amended): a hint line advances neither line counter, but it does
close an open run exactly as an unchanged line would; consequently a
maximal span of same-direction lines coalesces into exactly one run only
when no hint line is interleaved, and each interleaved hint splits the
span. -/
theorem claim_C3_amended :
    (∀ (st : SeqState) (l : String), startsWithCh '+' l = false →
      startsWithCh '-' l = false → startsWithCh '?' l = true →
      stepLine st l = { st with changed_sequence := none,
                                changed_sequences := st.changed_sequences ++ emitOf st }) ∧
    (∀ n : Nat, 1 ≤ n →
      extractChangedTagged (List.replicate n "- x" ++ ["  z"]) =
        [⟨Direction.rem, 1, n⟩]) := by
  constructor
  · exact stepLine_hint
  · intro n hn
    obtain ⟨m, rfl⟩ : ∃ m, n = m + 1 := ⟨n - 1, by omega⟩
    unfold extractChangedTagged
    rw [List.foldl_append, foldl_rem_open m initSeqState rfl]
    simp [stepLine, emitOf, initSeqState,
      show startsWithCh '+' "  z" = false from rfl,
      show startsWithCh '-' "  z" = false from rfl,
      show startsWithCh '?' "  z" = false from rfl]

theorem claim_C3_amended_witness :
    (startsWithCh '+' "? ^" = false ∧ startsWithCh '-' "? ^" = false ∧
     startsWithCh '?' "? ^" = true ∧
     stepLine ⟨3, 5, none, []⟩ "? ^" = ⟨3, 5, none, []⟩) ∧
    (1 ≤ 2 ∧ extractChangedTagged (List.replicate 2 "- x" ++ ["  z"]) =
      [⟨Direction.rem, 1, 2⟩]) :=
  ⟨⟨by decide, by decide, by decide, by
      simpa [emitOf] using
        claim_C3_amended.1 ⟨3, 5, none, []⟩ "? ^" (by decide) (by decide) (by decide)⟩,
   ⟨by decide, claim_C3_amended.2 2 (by decide)⟩⟩

/-- C4: for every source text and any paths, diffing a source against
itself yields no diff records at all, and the changed-sequence extraction
of identical sources yields the empty run list. -/
theorem claim_C4 (grammar : String → Except Unit (List Member))
    (path_a path_b a : String) :
    JavaParser.diff grammar (path_a, a) (path_b, a) = [] ∧
    JavaParser.extract_changed_sequences a a = [] :=
  ⟨diff_self grammar path_a path_b a, extract_changed_sequences_self a⟩

/-- C9: a changed sequence still open when the input of the line loop ends
is never emitted: trailing added lines (with no removed run open when they
begin) leave the output unchanged, and for the ndiff classification
"- x", "+ y" — two one-line sources differing in their final lines — the
returned list contains only the removed run, the added run being dropped. -/
theorem claim_C9 :
    (∀ ls s : List String, (∀ l ∈ s, startsWithCh '+' l = true) →
      (∀ r, (List.foldl stepLine initSeqState ls).changed_sequence = some r →
        r.operation = Direction.add) →
      extractChangedTagged (ls ++ s) = extractChangedTagged ls) ∧
    extractChangedTagged ["- x", "+ y"] = [⟨Direction.rem, 1, 1⟩] := by
  constructor
  · intro ls s hs hopen
    unfold extractChangedTagged
    rw [List.foldl_append]
    exact foldl_added_lines s _ hs hopen
  · decide

/-- C5: the grammar-based parse returns the empty component list when the
grammar collaborator reports a syntax error, and in diff a side whose parse
yields no components has every method and class of the other side
classified as added (when side A is empty) or removed (when side B is
empty), with every emitted record carrying exactly that operation — in
particular none is classified as modified. -/
theorem claim_C5 :
    (∀ (grammar : String → Except Unit (List Member)) (code : String) (e : Unit),
      grammar code = Except.error e → JavaParser.parse grammar code = []) ∧
    (∀ (grammar : String → Except Unit (List Member))
        (path_a path_b source_a source_b : String),
      JavaParser.parse grammar source_a = [] →
      (∀ k ∈ methodsOf (JavaParser.parse grammar source_b),
        Diff.method path_b k.1 none (some k.2) Op.added ∈
          JavaParser.diff grammar (path_a, source_a) (path_b, source_b)) ∧
      (∀ c ∈ classesOf (JavaParser.parse grammar source_b),
        Diff.clazz path_b none (some c) Op.added ∈
          JavaParser.diff grammar (path_a, source_a) (path_b, source_b)) ∧
      (∀ d ∈ JavaParser.diff grammar (path_a, source_a) (path_b, source_b),
        diffOp d = Op.added)) ∧
    (∀ (grammar : String → Except Unit (List Member))
        (path_a path_b source_a source_b : String),
      JavaParser.parse grammar source_b = [] →
      (∀ k ∈ methodsOf (JavaParser.parse grammar source_a),
        Diff.method path_b k.1 (some k.2) none Op.removed ∈
          JavaParser.diff grammar (path_a, source_a) (path_b, source_b)) ∧
      (∀ c ∈ classesOf (JavaParser.parse grammar source_a),
        Diff.clazz path_b (some c) none Op.removed ∈
          JavaParser.diff grammar (path_a, source_a) (path_b, source_b)) ∧
      (∀ d ∈ JavaParser.diff grammar (path_a, source_a) (path_b, source_b),
        diffOp d = Op.removed)) := by
  refine ⟨?_, ?_, ?_⟩
  · intro grammar code e h
    unfold JavaParser.parse
    rw [h]
  · intro grammar path_a path_b source_a source_b ha
    unfold JavaParser.diff
    rw [ha, diffCore_left_nil]
    refine ⟨?_, ?_, ?_⟩
    · intro k hk
      exact List.mem_append.2 (Or.inl (List.mem_map.2 ⟨k, hk, rfl⟩))
    · intro c hc
      exact List.mem_append.2 (Or.inr (List.mem_map.2 ⟨c, hc, rfl⟩))
    · intro d hd
      rcases List.mem_append.1 hd with h | h <;>
        · rcases List.mem_map.1 h with ⟨k, _, rfl⟩
          rfl
  · intro grammar path_a path_b source_a source_b hb
    unfold JavaParser.diff
    rw [hb, diffCore_right_nil]
    refine ⟨?_, ?_, ?_⟩
    · intro k hk
      exact List.mem_append.2 (Or.inl (List.mem_map.2 ⟨k, hk, rfl⟩))
    · intro c hc
      exact List.mem_append.2 (Or.inr (List.mem_map.2 ⟨c, hc, rfl⟩))
    · intro d hd
      rcases List.mem_append.1 hd with h | h <;>
        · rcases List.mem_map.1 h with ⟨k, _, rfl⟩
          rfl

theorem claim_C5_witness :
    ((fun s : String => if s = "A" then (Except.error () : Except Unit (List Member))
        else Except.ok [Member.clazz "C" [Member.method 1 (some 2) "m"]]) "A" =
      Except.error ()) ∧
    JavaParser.parse (fun s : String =>
      if s = "A" then (Except.error () : Except Unit (List Member))
      else Except.ok [Member.clazz "C" [Member.method 1 (some 2) "m"]]) "A" = [] ∧
    ("C", "m") ∈ methodsOf (JavaParser.parse (fun s : String =>
      if s = "A" then (Except.error () : Except Unit (List Member))
      else Except.ok [Member.clazz "C" [Member.method 1 (some 2) "m"]]) "B") ∧
    Diff.method "B.java" "C" none (some "m") Op.added ∈
      JavaParser.diff (fun s : String =>
        if s = "A" then (Except.error () : Except Unit (List Member))
        else Except.ok [Member.clazz "C" [Member.method 1 (some 2) "m"]])
        ("A.java", "A") ("B.java", "B") := by
  have hparse : JavaParser.parse (fun s : String =>
      if s = "A" then (Except.error () : Except Unit (List Member))
      else Except.ok [Member.clazz "C" [Member.method 1 (some 2) "m"]]) "A" = [] :=
    claim_C5.1 _ "A" () (by simp)
  have hmem : ("C", "m") ∈ methodsOf (JavaParser.parse (fun s : String =>
      if s = "A" then (Except.error () : Except Unit (List Member))
      else Except.ok [Member.clazz "C" [Member.method 1 (some 2) "m"]]) "B") := by
    simp [JavaParser.parse, parseTreeBody, classComponents]
    rw [show (".".intercalate ["C"]) = "C" from rfl]
    simp [methodsOf, methodKey]
  exact ⟨by simp, hparse,
    hmem, (claim_C5.2.1 _ "A.java" "B.java" "A" "B" hparse).1 ("C", "m") hmem⟩

theorem claim_C9_witness :
    (∀ l ∈ ["+ a", "+ b"], startsWithCh '+' l = true) ∧
    extractChangedTagged (["  u"] ++ ["+ a", "+ b"]) = extractChangedTagged ["  u"] :=
  ⟨by decide, claim_C9.1 ["  u"] ["+ a", "+ b"] (by decide)
    (by intro r hr
        rw [show (List.foldl stepLine initSeqState ["  u"]).changed_sequence = none
          from by decide] at hr
        cases hr)⟩

/-- C6: for a non-root commit renaming an in-scope java file whose content
is byte-identical, extraction with method granularity emits exactly one
DiffFile(renamed) and no DiffMethod or DiffClass records: the correlator
runs on the unchanged sources and returns the empty list. -/
theorem claim_C6 (ctx : ExtractorCtx) (e : DeltaEntry) (a b : Blob)
    (hgran : ctx.method_granularity = true)
    (hnew : e.new_file = false)
    (hren : e.renamed = true)
    (ha : e.a_blob = some a) (hb : e.b_blob = some b)
    (hgood : GitExtractor.is_good_blob ctx e.b_blob = true)
    (hcontent : a.content = b.content)
    (hjava : strContains e.rename_from "java" = true) :
    GitExtractor.processEntry ctx e =
      Except.ok [Diff.file (some e.rename_from) (some e.rename_to) Op.renamed] ∧
    ∀ c : GCommit, c.parentDeltas = [[e]] →
      GitExtractor.extract_commit ctx c =
        some ⟨c.hexsha, c.message, c.author, c.committed_date,
              [Diff.file (some e.rename_from) (some e.rename_to) Op.renamed]⟩ := by
  have hpe : GitExtractor.processEntry ctx e =
      Except.ok [Diff.file (some e.rename_from) (some e.rename_to) Op.renamed] := by
    have hgood' : GitExtractor.is_good_blob ctx (some b) = true := by
      rw [← hb]; exact hgood
    unfold GitExtractor.processEntry
    rw [ha, hb]
    simp only [hnew, hren, hgood', hgran, GitExtractor.getBlob,
      Bool.not_true, Bool.and_false, Bool.false_eq_true, if_false, ite_false,
      ite_true, if_true, Bind.bind, Except.bind]
    rw [hcontent]
    rw [show GitExtractor.diff ctx.grammar (e.rename_from, b.content)
        (e.rename_to, b.content) =
          some (JavaParser.diff ctx.grammar (e.rename_from, b.content)
            (e.rename_to, b.content)) from by
      unfold GitExtractor.diff; rw [show strContains (e.rename_from, b.content).1 "java" =
        true from hjava]; simp]
    rw [diff_self]
    simp
  refine ⟨hpe, ?_⟩
  intro c hc
  unfold GitExtractor.extract_commit
  rw [hc]
  simp [GitExtractor.collectEntries, hpe]

theorem claim_C6_witness :
    (⟨fun _ => Except.ok [], fun _ => true, fun _ => false, true⟩ :
      ExtractorCtx).method_granularity = true ∧
    strContains "A.java" "java" = true ∧
    GitExtractor.is_good_blob
      ⟨fun _ => Except.ok [], fun _ => true, fun _ => false, true⟩
      (some ⟨"B.java", "x"⟩) = true ∧
    GitExtractor.processEntry
      ⟨fun _ => Except.ok [], fun _ => true, fun _ => false, true⟩
      ⟨false, true, false, some ⟨"A.java", "x"⟩, some ⟨"B.java", "x"⟩,
        "A.java", "B.java"⟩ =
      Except.ok [Diff.file (some "A.java") (some "B.java") Op.renamed] :=
  ⟨rfl, by decide, by decide,
    (claim_C6 ⟨fun _ => Except.ok [], fun _ => true, fun _ => false, true⟩
      ⟨false, true, false, some ⟨"A.java", "x"⟩, some ⟨"B.java", "x"⟩,
        "A.java", "B.java"⟩
      ⟨"A.java", "x"⟩ ⟨"B.java", "x"⟩ rfl rfl rfl rfl rfl (by decide) rfl
      (by decide)).1⟩

/-- C8: extraction over the same commit list with `parallel=True` and with
`parallel=False` produces identical ordered commit sequences and hence
identical diff contents; the concurrent path applies the same per-commit
extraction function to the same identifiers, and the pool returns results
in input order, which both paths then reverse into chronological order. -/
theorem claim_C8 (ctx : ExtractorCtx) (commits : List GCommit) :
    GitExtractor.extract_commits ctx commits true =
      GitExtractor.extract_commits ctx commits false ∧
    (GitExtractor.extract_commits ctx commits true).map ExCommit.diffs =
      (GitExtractor.extract_commits ctx commits false).map ExCommit.diffs :=
  ⟨rfl, rfl⟩

/-- C10: `GitExtractor.parse` and `GitExtractor.diff` return Python `None`
for every path not containing the substring "java"; consequently, under
method granularity, an in-scope added, renamed-with-changes (the renamed
branch regardless of content), or modified file with such a path raises a
`TypeError` inside `extract_commit`, which then returns `None`, dropping
the entire commit from the extracted sequence instead of emitting a
file-level-only diff. -/
theorem claim_C10 :
    (∀ (grammar : String → Except Unit (List Member)) (path source : String),
      strContains path "java" = false →
      GitExtractor.parse grammar path source = none) ∧
    (∀ (grammar : String → Except Unit (List Member)) (file_a file_b : String × String),
      strContains file_a.1 "java" = false →
      GitExtractor.diff grammar file_a file_b = none) ∧
    (∀ (ctx : ExtractorCtx) (e : DeltaEntry) (b : Blob),
      ctx.method_granularity = true → e.new_file = true → e.b_blob = some b →
      GitExtractor.is_good_blob ctx e.b_blob = true →
      strContains b.path "java" = false →
      GitExtractor.processEntry ctx e = Except.error ()) ∧
    (∀ (ctx : ExtractorCtx) (e : DeltaEntry) (a b : Blob),
      ctx.method_granularity = true → e.new_file = false → e.renamed = true →
      e.a_blob = some a → e.b_blob = some b →
      GitExtractor.is_good_blob ctx e.b_blob = true →
      strContains e.rename_from "java" = false →
      GitExtractor.processEntry ctx e = Except.error ()) ∧
    (∀ (ctx : ExtractorCtx) (e : DeltaEntry) (a b : Blob),
      ctx.method_granularity = true → e.new_file = false → e.renamed = false →
      e.deleted_file = false → e.a_blob = some a → e.b_blob = some b →
      (GitExtractor.is_good_blob ctx e.a_blob ||
        GitExtractor.is_good_blob ctx e.b_blob) = true →
      strContains a.path "java" = false →
      GitExtractor.processEntry ctx e = Except.error ()) ∧
    (∀ (ctx : ExtractorCtx) (c : GCommit) (e : DeltaEntry),
      GitExtractor.processEntry ctx e = Except.error () →
      c.parentDeltas = [[e]] →
      GitExtractor.extract_commit ctx c = none ∧
      ∀ par : Bool, GitExtractor.extract_commits ctx [c] par = []) := by
  refine ⟨?_, ?_, ?_, ?_, ?_, ?_⟩
  · intro grammar path source h
    unfold GitExtractor.parse
    rw [h]
    simp
  · intro grammar file_a file_b h
    unfold GitExtractor.diff
    rw [h]
    simp
  · intro ctx e b hgran hnew hb hgood hjava
    have hgood' : GitExtractor.is_good_blob ctx (some b) = true := by
      rw [← hb]; exact hgood
    unfold GitExtractor.processEntry
    rw [hb]
    simp only [hnew, hgood', Bool.not_true, Bool.and_false, Bool.false_eq_true,
      if_false, ite_false, ite_true, if_true, GitExtractor.getBlob, Bind.bind,
      Except.bind]
    unfold GitExtractor.addedFileDiffs
    rw [hgran]
    unfold GitExtractor.parse
    rw [hjava]
    simp
  · intro ctx e a b hgran hnew hren ha hb hgood hjava
    have hgood' : GitExtractor.is_good_blob ctx (some b) = true := by
      rw [← hb]; exact hgood
    unfold GitExtractor.processEntry
    rw [ha, hb]
    simp only [hnew, hren, hgood', hgran, Bool.not_true, Bool.and_false,
      Bool.false_eq_true, if_false, ite_false, ite_true, if_true,
      GitExtractor.getBlob, Bind.bind, Except.bind]
    unfold GitExtractor.diff
    rw [hjava]
    simp
  · intro ctx e a b hgran hnew hren hdel ha hb hgood hjava
    have hcond : (!GitExtractor.is_good_blob ctx e.a_blob &&
        !GitExtractor.is_good_blob ctx e.b_blob) = false := by
      rw [← Bool.not_or, hgood]
      rfl
    unfold GitExtractor.processEntry
    rw [hcond, ha, hb]
    simp only [hnew, hren, hdel, hgran, Bool.false_eq_true, if_false, ite_false,
      ite_true, if_true, GitExtractor.getBlob, Bind.bind, Except.bind]
    unfold GitExtractor.diff
    rw [hjava]
    simp
  · intro ctx c e hpe hc
    constructor
    · unfold GitExtractor.extract_commit
      rw [hc]
      simp [GitExtractor.collectEntries, hpe]
    · intro par
      have hnone : GitExtractor.extract_commit ctx c = none := by
        unfold GitExtractor.extract_commit
        rw [hc]
        simp [GitExtractor.collectEntries, hpe]
      unfold GitExtractor.extract_commits
      cases par <;> simp [GitExtractor.poolMap, hnone]

theorem claim_C10_witness :
    strContains "main.py" "java" = false ∧
    GitExtractor.parse (fun _ => Except.ok []) "main.py" "x" = none ∧
    GitExtractor.processEntry
      ⟨fun _ => Except.ok [], fun _ => true, fun _ => false, true⟩
      ⟨true, false, false, none, some ⟨"main.py", "x"⟩, "", ""⟩ =
      Except.error () ∧
    GitExtractor.extract_commit
      ⟨fun _ => Except.ok [], fun _ => true, fun _ => false, true⟩
      ⟨"sha", "msg", "au", 5, [],
        [[⟨true, false, false, none, some ⟨"main.py", "x"⟩, "", ""⟩]]⟩ = none ∧
    GitExtractor.extract_commits
      ⟨fun _ => Except.ok [], fun _ => true, fun _ => false, true⟩
      [⟨"sha", "msg", "au", 5, [],
        [[⟨true, false, false, none, some ⟨"main.py", "x"⟩, "", ""⟩]]⟩] true = [] := by
  have hpe := claim_C10.2.2.1
    ⟨fun _ => Except.ok [], fun _ => true, fun _ => false, true⟩
    ⟨true, false, false, none, some ⟨"main.py", "x"⟩, "", ""⟩
    ⟨"main.py", "x"⟩ rfl rfl rfl (by decide) (by decide)
  have hlast := claim_C10.2.2.2.2.2
    ⟨fun _ => Except.ok [], fun _ => true, fun _ => false, true⟩
    ⟨"sha", "msg", "au", 5, [],
      [[⟨true, false, false, none, some ⟨"main.py", "x"⟩, "", ""⟩]]⟩
    ⟨true, false, false, none, some ⟨"main.py", "x"⟩, "", ""⟩ hpe rfl
  exact ⟨by decide, claim_C10.1 (fun _ => Except.ok []) "main.py" "x" (by decide),
    hpe, hlast.1, hlast.2 true⟩

lemma getScore_addAt_other (m : List (String × ℝ)) (f p : String) (v : ℝ)
    (hp : p ≠ f) : getScore (addAt m f v) p = getScore m p := by
  induction m with
  | nil => rfl
  | cons kv rest ih =>
      obtain ⟨k, w⟩ := kv
      by_cases hk : k = f
      · rw [addAt, if_pos hk]
        subst hk
        rw [getScore, getScore, if_neg (fun h => hp h.symm), if_neg (fun h => hp h.symm)]
        exact ih
      · rw [addAt, if_neg hk]
        by_cases hkp : k = p
        · rw [getScore, getScore, if_pos hkp, if_pos hkp]
        · rw [getScore, getScore, if_neg hkp, if_neg hkp]
          exact ih

lemma getScore_addAt_self (m : List (String × ℝ)) (f : String) (v : ℝ)
    (h : hasKey m f = true) : getScore (addAt m f v) f = getScore m f + v := by
  induction m with
  | nil => cases h
  | cons kv rest ih =>
      obtain ⟨k, w⟩ := kv
      by_cases hk : k = f
      · rw [addAt, if_pos hk, getScore, getScore, if_pos hk, if_pos hk]
      · rw [hasKey, if_neg hk] at h
        rw [addAt, if_neg hk, getScore, getScore, if_neg hk, if_neg hk]
        exact ih h

lemma addAt_no_key (m : List (String × ℝ)) (f : String) (v : ℝ)
    (h : hasKey m f = false) : addAt m f v = m := by
  induction m with
  | nil => rfl
  | cons kv rest ih =>
      obtain ⟨k, w⟩ := kv
      by_cases hk : k = f
      · rw [hasKey, if_pos hk] at h; cases h
      · rw [hasKey, if_neg hk] at h
        rw [addAt, if_neg hk, ih h]

lemma getScore_addAt_ge (m : List (String × ℝ)) (f p : String) (v : ℝ)
    (hv : 0 ≤ v) : getScore m p ≤ getScore (addAt m f v) p := by
  by_cases hp : p = f
  · subst hp
    cases hk : hasKey m p with
    | false => rw [addAt_no_key m p v hk]
    | true => rw [getScore_addAt_self m p v hk]; linarith
  · rw [getScore_addAt_other m f p v hp]

lemma getScore_foldFiles_ge (fs : List String) (v : ℝ) (hv : 0 ≤ v) :
    ∀ (m : List (String × ℝ)) (p : String),
      getScore m p ≤
        getScore (fs.foldl (fun m f => if hasKey m f then addAt m f v else m) m) p := by
  induction fs with
  | nil => intro m p; simp
  | cons f t ih =>
      intro m p
      rw [List.foldl_cons]
      refine le_trans ?_ (ih _ p)
      by_cases hk : hasKey m f = true
      · rw [if_pos hk]; exact getScore_addAt_ge m f p v hv
      · rw [if_neg hk]

lemma getScore_stepCommit_ge (b n : ℝ) (m : List (String × ℝ)) (c : ACommit)
    (p : String) :
    getScore m p ≤ getScore (TimeWeightedRiskAnalysis.stepCommit b n m c) p := by
  unfold TimeWeightedRiskAnalysis.stepCommit
  by_cases hbf : TimeWeightedRiskAnalysis.is_bug_fixing c = true
  · rw [if_pos hbf]
    refine getScore_foldFiles_ge c.files _ ?_ m p
    positivity
  · rw [if_neg hbf]

lemma hasKey_map_pairs (l : List String) (p : String) :
    hasKey (l.map fun q => (q, (0 : ℝ))) p = true ↔ p ∈ l := by
  induction l with
  | nil => simp [hasKey]
  | cons q t ih =>
      rw [List.map_cons, hasKey]
      by_cases hq : q = p
      · simp [hq]
      · rw [if_neg hq]
        simp only [List.mem_cons, ih]
        constructor
        · exact Or.inr
        · rintro (h | h)
          · exact absurd h.symm hq
          · exact h

lemma hasKey_seed (files : List AFile) (p : String) :
    hasKey (seedMetrics files) p = true ↔ p ∈ files.map AFile.path := by
  unfold seedMetrics
  rw [hasKey_map_pairs, List.mem_dedup]

lemma getScore_map_zero (l : List String) (p : String) :
    getScore (l.map fun q => (q, (0 : ℝ))) p = 0 := by
  induction l with
  | nil => rfl
  | cons q t ih =>
      rw [List.map_cons, getScore]
      by_cases hq : q = p
      · rw [if_pos hq]
      · rw [if_neg hq]; exact ih

lemma getScore_seed (files : List AFile) (p : String) :
    getScore (seedMetrics files) p = 0 := by
  unfold seedMetrics
  exact getScore_map_zero _ p

lemma stepCommit_not_bug (b n : ℝ) (m : List (String × ℝ)) (c : ACommit)
    (h : TimeWeightedRiskAnalysis.is_bug_fixing c = false) :
    TimeWeightedRiskAnalysis.stepCommit b n m c = m := by
  unfold TimeWeightedRiskAnalysis.stepCommit
  simp [h]

lemma stepCommit_bug (b n : ℝ) (m : List (String × ℝ)) (c : ACommit)
    (h : TimeWeightedRiskAnalysis.is_bug_fixing c = true) :
    TimeWeightedRiskAnalysis.stepCommit b n m c =
      c.files.foldl (fun m f => if hasKey m f then
        addAt m f (1 / (1 + Real.exp
          (-12 * TimeWeightedRiskAnalysis.normalise_timestamp b c.timestamp n + 12)))
        else m) m := by
  unfold TimeWeightedRiskAnalysis.stepCommit
  rw [if_pos h]

/-- C1: the claim asserts that analyze normalizes a commit's position
against `repository.evaluated_at`, so that the Scenario C repository whose
bug-fixing second commit is timestamped exactly at `evaluated_at` gets
position 1 and weight exactly 0.5.  The code instead normalizes against
`time.time()` — the wall clock at the moment of analysis — so when the
analysis runs at wall-clock time 4 over the Scenario C repository
(created 0, evaluated 2, bug-fix commit at 2), the position is 1/2 and the
score of "X.java" is `1/(1+e^6)`, not 0.5. -/
theorem claim_C1_counterexample :
    ACommit.timestamp c2C = ARepository.evaluated_at repoC ∧
    TimeWeightedRiskAnalysis.is_bug_fixing c2C = true ∧
    TimeWeightedRiskAnalysis.is_bug_fixing c1C = false ∧
    getScore (TimeWeightedRiskAnalysis.analyze repoC 4) "X.java" ≠ 1 / 2 := by
  refine ⟨rfl, by decide, by decide, ?_⟩
  have hkey : hasKey (seedMetrics repoC.files) "X.java" = true := by decide
  have hana : TimeWeightedRiskAnalysis.analyze repoC 4 =
      TimeWeightedRiskAnalysis.stepCommit repoC.timestamp 4
        (TimeWeightedRiskAnalysis.stepCommit repoC.timestamp 4
          (seedMetrics repoC.files) c1C) c2C := rfl
  have hnorm : TimeWeightedRiskAnalysis.normalise_timestamp repoC.timestamp
      c2C.timestamp 4 = 1 / 2 := by
    unfold TimeWeightedRiskAnalysis.normalise_timestamp
    rw [show c2C.timestamp = (2 : ℝ) from rfl, show repoC.timestamp = (0 : ℝ) from rfl]
    norm_num
  have hscore : getScore (TimeWeightedRiskAnalysis.analyze repoC 4) "X.java" =
      1 / (1 + Real.exp 6) := by
    rw [hana, stepCommit_not_bug repoC.timestamp 4 (seedMetrics repoC.files) c1C
      (by decide), stepCommit_bug repoC.timestamp 4 (seedMetrics repoC.files) c2C
      (by decide), show c2C.files = ["X.java"] from rfl]
    simp only [List.foldl_cons, List.foldl_nil]
    rw [if_pos hkey, getScore_addAt_self _ _ _ hkey, getScore_seed, hnorm]
    norm_num
  rw [hscore]
  have h7 : (7 : ℝ) ≤ Real.exp 6 := by
    linarith [Real.add_one_le_exp (6 : ℝ)]
  have hlt : (1 : ℝ) / (1 + Real.exp 6) < 1 / 2 := by
    rw [div_lt_div_iff (by positivity) (by norm_num)]
    linarith
  exact hlt.ne

/-- C1 (amended): analyze normalizes a commit's position against the wall
clock read at analysis time (`time.time()`), not against
`repository.evaluated_at`; for a Scenario C repository whose bug-fixing
second commit is timestamped exactly at that wall-clock instant (and whose
creation time differs from it), the position is 1 and the touched current
file "X.java" scores exactly `w(1) = 0.5`, every other file's score staying
at its seeded 0. -/
theorem claim_C1_amended (repo : ARepository) (c1 c2 : ACommit) (now : ℝ)
    (hcommits : repo.commits = [c1, c2])
    (hb1 : TimeWeightedRiskAnalysis.is_bug_fixing c1 = false)
    (hb2 : TimeWeightedRiskAnalysis.is_bug_fixing c2 = true)
    (hfiles : c2.files = ["X.java"])
    (hts : c2.timestamp = now)
    (ht0 : repo.timestamp ≠ now)
    (hF : "X.java" ∈ repo.files.map AFile.path) :
    getScore (TimeWeightedRiskAnalysis.analyze repo now) "X.java" = 1 / 2 ∧
    ∀ p : String, p ≠ "X.java" →
      getScore (TimeWeightedRiskAnalysis.analyze repo now) p = 0 := by
  have hkey : hasKey (seedMetrics repo.files) "X.java" = true :=
    (hasKey_seed _ _).2 hF
  have hnorm : TimeWeightedRiskAnalysis.normalise_timestamp repo.timestamp
      c2.timestamp now = 1 := by
    unfold TimeWeightedRiskAnalysis.normalise_timestamp
    rw [hts]
    exact div_self (sub_ne_zero.mpr (Ne.symm ht0))
  have hana : TimeWeightedRiskAnalysis.analyze repo now =
      addAt (seedMetrics repo.files) "X.java" (1 / 2) := by
    unfold TimeWeightedRiskAnalysis.analyze
    rw [hcommits]
    simp only [List.foldl_cons, List.foldl_nil]
    rw [stepCommit_not_bug _ _ _ _ hb1, stepCommit_bug _ _ _ _ hb2, hfiles]
    simp only [List.foldl_cons, List.foldl_nil]
    rw [if_pos hkey, hnorm]
    norm_num [Real.exp_zero]
  constructor
  · rw [hana, getScore_addAt_self _ _ _ hkey, getScore_seed]
    norm_num
  · intro p hp
    rw [hana, getScore_addAt_other _ _ _ _ hp, getScore_seed]

theorem claim_C1_amended_witness :
    TimeWeightedRiskAnalysis.is_bug_fixing c1C = false ∧
    TimeWeightedRiskAnalysis.is_bug_fixing c2C = true ∧
    ACommit.timestamp c2C = (2 : ℝ) ∧ ARepository.timestamp repoC ≠ (2 : ℝ) ∧
    getScore (TimeWeightedRiskAnalysis.analyze repoC 2) "X.java" = 1 / 2 ∧
    getScore (TimeWeightedRiskAnalysis.analyze repoC 2) "Y.java" = 0 :=
  ⟨by decide, by decide, rfl,
    by rw [show ARepository.timestamp repoC = (0 : ℝ) from rfl]; norm_num,
    (claim_C1_amended repoC c1C c2C 2 rfl (by decide) (by decide) rfl rfl
      (by rw [show ARepository.timestamp repoC = (0 : ℝ) from rfl]; norm_num)
      (by decide)).1,
    (claim_C1_amended repoC c1C c2C 2 rfl (by decide) (by decide) rfl rfl
      (by rw [show ARepository.timestamp repoC = (0 : ℝ) from rfl]; norm_num)
      (by decide)).2 "Y.java" (by decide)⟩

/-- C7: extending a repository's commit sequence with one additional
bug-fixing commit touching a current file F, everything else identical,
never decreases F's score in the map returned by analyze: the added weight
is positive and every score is mutated only additively. -/
theorem claim_C7 (repo : ARepository) (c : ACommit) (now : ℝ) (F : String)
    (hF : F ∈ repo.files.map AFile.path)
    (hbug : TimeWeightedRiskAnalysis.is_bug_fixing c = true)
    (hFc : F ∈ c.files) :
    getScore (TimeWeightedRiskAnalysis.analyze repo now) F ≤
      getScore (TimeWeightedRiskAnalysis.analyze
        ⟨repo.commits ++ [c], repo.timestamp, repo.evaluated_at, repo.files⟩ now) F := by
  unfold TimeWeightedRiskAnalysis.analyze
  rw [List.foldl_append, List.foldl_cons, List.foldl_nil]
  exact getScore_stepCommit_ge _ _ _ _ _

theorem claim_C7_witness :
    "X.java" ∈ repoC.files.map AFile.path ∧
    TimeWeightedRiskAnalysis.is_bug_fixing ⟨"bug in tokenizer", 3, ["X.java"]⟩ = true ∧
    "X.java" ∈ ACommit.files ⟨"bug in tokenizer", 3, ["X.java"]⟩ ∧
    getScore (TimeWeightedRiskAnalysis.analyze repoC 4) "X.java" ≤
      getScore (TimeWeightedRiskAnalysis.analyze
        ⟨repoC.commits ++ [⟨"bug in tokenizer", 3, ["X.java"]⟩],
          repoC.timestamp, repoC.evaluated_at, repoC.files⟩ 4) "X.java" :=
  ⟨by decide, by decide, by decide,
    claim_C7 repoC ⟨"bug in tokenizer", 3, ["X.java"]⟩ 4 "X.java"
      (by decide) (by decide) (by decide)⟩

end Schwa
